import Mathlib

/-!
Verification of the BDF `Serializer` (src/src/Serializer.h).

The serializer turns fixed-width scalars, strings, pairs, vectors and maps
into a flat byte stream and back, with a configurable endianness tag.

Shallow embedding conventions:
* A byte is a `Nat` (semantically `< 256`); the stream is a `List Nat`.
* A fixed-width scalar of width `w` bytes is modelled by its `w`-byte bit
  pattern, a `Nat < 256 ^ w`.  This covers both integral and floating-point
  values: the C++ code moves and swaps raw bytes only, so a float is
  represented here by its IEEE bit pattern (round-trips are bit-pattern
  equalities, exactly as the code behaves for NaN/Inf as well).
* `host` is the machine byte order (`BDF_SYSTEM_ENDIAN`, fixed by
  `__BYTE_ORDER__` at compile time); we parameterise over it so both
  little- and big-endian hosts are covered.  The "native" tag is the tag
  equal to `host`.
* Reading is a function from the remaining stream to
  `Except RErr (value × remaining stream)`.  `RErr.eof` models the stream
  failing to deliver the requested bytes; `RErr.assertFail` models the
  `assert(n>0)` in `Serializer::read(char*, size_t)` firing.
-/

/-- The endianness tags `BDF_LITTLE_ENDIAN` / `BDF_BIG_ENDIAN`.  The C++
`static_assert` restricts `Endian` to exactly these two values; the
"native" tag is whichever of the two equals the host order. -/
inductive Endian : Type where
  | little : Endian
  | big : Endian
  deriving DecidableEq, Repr

/-- Failure modes of a decode: the underlying stream could not supply the
requested bytes (`eof`), or the `assert(n>0)` in `Serializer::read(char*,
size_t)` fired (`assertFail`). -/
inductive RErr : Type where
  | assertFail : RErr
  | eof : RErr
  deriving DecidableEq, Repr

/-- The `w`-byte little-endian byte sequence of a value (least significant
byte first). -/
def natToBytesLE : Nat → Nat → List Nat
  | 0, _ => []
  | w + 1, v => v % 256 :: natToBytesLE w (v / 256)

/-- Recompose a value from its little-endian byte sequence. -/
def bytesFromLE (l : List Nat) : Nat :=
  l.foldr (fun b acc => b + 256 * acc) 0

/-- The in-memory byte representation of scalar value `v` of width `w` on a
machine with byte order `host`: little-endian hosts store the least
significant byte first, big-endian hosts the most significant byte first. -/
def nativeBytes (host : Endian) (w v : Nat) : List Nat :=
  match host with
  | .little => natToBytesLE w v
  | .big => (natToBytesLE w v).reverse

/-- The scalar value denoted by in-memory bytes `l` on a machine with byte
order `host` (inverse direction of `nativeBytes`). -/
def fromNative (host : Endian) (l : List Nat) : Nat :=
  match host with
  | .little => bytesFromLE l
  | .big => bytesFromLE l.reverse

/-- `swapBytes<nBytes>(char *src)`: the explicit specializations for widths
1, 2, 4 and 8.  Width 1 is a no-op; width 2 swaps bytes 0,1; width 4 swaps
(0,3) and (1,2); width 8 swaps (0,7), (1,6), (2,5), (3,4).  The generic
template has no body, so only these widths exist (modelled by the identity
default, which is never reached on scalar widths other than 1). -/
def swapBytes : Nat → List Nat → List Nat
  | 2, b0 :: b1 :: rest => b1 :: b0 :: rest
  | 4, b0 :: b1 :: b2 :: b3 :: rest => b3 :: b2 :: b1 :: b0 :: rest
  | 8, b0 :: b1 :: b2 :: b3 :: b4 :: b5 :: b6 :: b7 :: rest =>
      b7 :: b6 :: b5 :: b4 :: b3 :: b2 :: b1 :: b0 :: rest
  | _, l => l

/-- `Swapper<Enabled>::swap`: applies `swapBytes` when `Enabled`, otherwise
does nothing (the `Swapper<false>` specialization). -/
def swapperSwap (enabled : Bool) (w : Nat) (l : List Nat) : List Nat :=
  if enabled then swapBytes w l else l

/-- The widths of the supported fixed-width scalar types (the `swapBytes`
specializations): 1, 2, 4 or 8 bytes. -/
def ScalarWidth (w : Nat) : Prop :=
  w = 1 ∨ w = 2 ∨ w = 4 ∨ w = 8

/-- The stream collaborator's `read(bytes, n)`: deliver exactly `n` bytes
or signal failure. -/
def streamRead (n : Nat) (s : List Nat) : Except RErr (List Nat × List Nat) :=
  if n ≤ s.length then .ok (s.take n, s.drop n) else .error .eof

/-- `Serializer::read(char * str, size_t n)`: `assert(n>0); ss.read(str,n);`.
A zero-byte request trips the assertion before the stream is consulted. -/
def serRead (n : Nat) (s : List Nat) : Except RErr (List Nat × List Nat) :=
  if n = 0 then .error .assertFail else streamRead n s

/-- `Serializer::operator<<(T v)` for scalar `T`, as the byte run it appends
to the stream: the in-memory bytes of `v`, byte-swapped by
`Swapper<Endian != BDF_SYSTEM_ENDIAN>` first. -/
def encodeScalar (host tag : Endian) (w v : Nat) : List Nat :=
  swapperSwap (decide (tag ≠ host)) w (nativeBytes host w v)

/-- `Serializer::operator>>(T & v)` for scalar `T`: read `sizeof(T)` bytes
into `v`'s memory via `read(ptr, sizeof(T))`, then byte-swap `v` in place
when the tag differs from the host order. -/
def decodeScalar (host tag : Endian) (w : Nat) (s : List Nat) :
    Except RErr (Nat × List Nat) := do
  let (b, rest) ← serRead w s
  pure (fromNative host (swapperSwap (decide (tag ≠ host)) w b), rest)

/-! ### Basic byte-level lemmas -/

theorem natToBytesLE_length (w v : Nat) : (natToBytesLE w v).length = w := by
  induction w generalizing v with
  | zero => rfl
  | succ w ih => simp [natToBytesLE, ih]

theorem natToBytesLE_lt (w v : Nat) : ∀ b ∈ natToBytesLE w v, b < 256 := by
  induction w generalizing v with
  | zero => simp [natToBytesLE]
  | succ w ih =>
    intro b hb
    simp only [natToBytesLE, List.mem_cons] at hb
    rcases hb with rfl | hb
    · exact Nat.mod_lt _ (by omega)
    · exact ih _ _ hb

theorem bytesFromLE_natToBytesLE (w v : Nat) :
    bytesFromLE (natToBytesLE w v) = v % 256 ^ w := by
  induction w generalizing v with
  | zero => simp [natToBytesLE, bytesFromLE, Nat.mod_one]
  | succ w ih =>
    simp only [natToBytesLE, bytesFromLE, List.foldr_cons]
    have hfold : (natToBytesLE w (v / 256)).foldr (fun b acc => b + 256 * acc) 0
        = v / 256 % 256 ^ w := ih (v / 256)
    rw [hfold]
    have : (256 : Nat) ^ (w + 1) = 256 * 256 ^ w := by ring
    rw [this, Nat.mod_mul]

theorem nativeBytes_length (host : Endian) (w v : Nat) :
    (nativeBytes host w v).length = w := by
  cases host <;> simp [nativeBytes, natToBytesLE_length]

theorem fromNative_nativeBytes (host : Endian) (w v : Nat) (hv : v < 256 ^ w) :
    fromNative host (nativeBytes host w v) = v := by
  cases host <;>
    simp [fromNative, nativeBytes, bytesFromLE_natToBytesLE, Nat.mod_eq_of_lt hv]

theorem swapBytes_eq_reverse {w : Nat} (hw : ScalarWidth w) {l : List Nat}
    (hl : l.length = w) : swapBytes w l = l.reverse := by
  rcases hw with rfl | rfl | rfl | rfl
  · match l, hl with
    | [a], _ => rfl
  · match l, hl with
    | [a, b], _ => rfl
  · match l, hl with
    | [a, b, c, d], _ => rfl
  · match l, hl with
    | [a, b, c, d, e, f, g, h], _ => rfl

theorem swapBytes_length {w : Nat} (hw : ScalarWidth w) {l : List Nat}
    (hl : l.length = w) : (swapBytes w l).length = w := by
  rw [swapBytes_eq_reverse hw hl, List.length_reverse, hl]

theorem swapperSwap_length {w : Nat} (e : Bool) (hw : ScalarWidth w)
    {l : List Nat} (hl : l.length = w) : (swapperSwap e w l).length = w := by
  cases e <;> simp [swapperSwap, hl, swapBytes_length hw hl]

theorem swapperSwap_swapperSwap {w : Nat} (e : Bool) (hw : ScalarWidth w)
    {l : List Nat} (hl : l.length = w) : swapperSwap e w (swapperSwap e w l) = l := by
  cases e with
  | false => simp [swapperSwap]
  | true =>
    simp only [swapperSwap, if_pos]
    rw [swapBytes_eq_reverse hw hl,
      swapBytes_eq_reverse hw (by rw [List.length_reverse, hl]),
      List.reverse_reverse]

theorem encodeScalar_length (host tag : Endian) {w : Nat} (hw : ScalarWidth w)
    (v : Nat) : (encodeScalar host tag w v).length = w :=
  swapperSwap_length _ hw (nativeBytes_length host w v)

/-- Core round-trip fact for the primitive codec: same host, same tag. -/
theorem decodeScalar_encodeScalar (host tag : Endian) {w v : Nat}
    (hw : ScalarWidth w) (hv : v < 256 ^ w) (rest : List Nat) :
    decodeScalar host tag w (encodeScalar host tag w v ++ rest) = .ok (v, rest) := by
  have hlen : (encodeScalar host tag w v).length = w :=
    encodeScalar_length host tag hw v
  have hw0 : w ≠ 0 := by rcases hw with rfl | rfl | rfl | rfl <;> omega
  simp only [decodeScalar, serRead, streamRead]
  rw [if_neg hw0]
  rw [if_pos (by rw [List.length_append, hlen]; omega)]
  rw [List.take_left' hlen, List.drop_left' hlen]
  show Except.ok
      (fromNative host (swapperSwap (decide (tag ≠ host)) w
        (swapperSwap (decide (tag ≠ host)) w (nativeBytes host w v))), rest)
    = Except.ok (v, rest)
  rw [swapperSwap_swapperSwap _ hw (nativeBytes_length host w v),
    fromNative_nativeBytes host w v hv]

/-! ### String codec and the literal-string writer -/

/-- `operator<< (Serializer&, const std::string&)`: write `str.size()` with
the primitive codec (`size_t`, 8 bytes), then the raw bytes, no
terminator. -/
def encodeString (host tag : Endian) (str : List Nat) : List Nat :=
  encodeScalar host tag 8 str.length ++ str

/-- `operator>> (Serializer&, std::string&)`: read a length `n`, resize the
string, then `s.read(&str[0], n)` — which goes through
`Serializer::read(char*, size_t)` and its `assert(n>0)`. -/
def decodeString (host tag : Endian) (s : List Nat) :
    Except RErr (List Nat × List Nat) := do
  let (n, s1) ← decodeScalar host tag 8 s
  let (b, s2) ← serRead n s1
  pure (b, s2)

/-- `std::strlen` on the buffer contents: the number of bytes before the
first null byte. -/
def strLen (buf : List Nat) : Nat :=
  (buf.takeWhile (fun b => b != 0)).length

/-- `Serializer::operator<<(const char * str)`: `n = strlen(str)`, write `n`
with the primitive codec, then the first `n` bytes of the buffer. -/
def writeCString (host tag : Endian) (buf : List Nat) : List Nat :=
  encodeScalar host tag 8 (strLen buf) ++ buf.take (strLen buf)

/-- `Serializer::operator<<(T v)` seen as a call: the caller's argument is
copied into the by-value parameter `v` (modelled by its in-memory bytes);
`Swapper::swap` mutates that local copy, whose bytes are then written.  The
first component is the value the caller's variable holds after the call. -/
def scalarWriteCall (host tag : Endian) (w callerArg : Nat) (stream : List Nat) :
    Nat × List Nat :=
  let vBytes := nativeBytes host w callerArg
  let vSwapped := swapperSwap (decide (tag ≠ host)) w vBytes
  (callerArg, stream ++ vSwapped)

/-! ### Claims C1, C2, C4, C5, C6, C8, C9 -/

/-- Claim C1: for every supported fixed-width scalar bit pattern `v`
(integral or floating point, widths 1/2/4/8, floats compared on bit
pattern) and every endianness tag, on either host order, decoding the bytes
produced by encoding `v` with the same tag yields `v` again — including the
boundary patterns 0, min, max, NaN/Inf, which are just particular values of
`v < 256 ^ w`. -/
theorem scalar_roundtrip (host tag : Endian) (w v : Nat) (hw : ScalarWidth w)
    (hv : v < 256 ^ w) (rest : List Nat) :
    decodeScalar host tag w (encodeScalar host tag w v ++ rest) = .ok (v, rest) :=
  decodeScalar_encodeScalar host tag hw hv rest

theorem scalar_roundtrip_witness :
    ScalarWidth 4 ∧ 4294967295 < 256 ^ 4 ∧
      decodeScalar .little .big 4 (encodeScalar .little .big 4 4294967295 ++ [])
        = .ok (4294967295, []) :=
  ⟨Or.inr (Or.inr (Or.inl rfl)), by decide,
    scalar_roundtrip .little .big 4 4294967295 (Or.inr (Or.inr (Or.inl rfl)))
      (by decide) []⟩

/-- Claim C2 (code bug): the claim says every string, including the empty
one, round-trips without hitting any error or assertion branch.  The code
violates this: `operator>>(std::string&)` always calls
`Serializer::read(char*, n)`, whose `assert(n>0)` fires when the decoded
length is 0.  This theorem evaluates the embedded decoder on the encoding
of the empty string and shows it reaches the assertion failure. -/
theorem decode_empty_string_asserts :
    decodeString .little .little (encodeString .little .little [])
      = .error .assertFail := rfl

/-- Claim C4: the byte-order transform is an involution on each supported
width — `swapBytes` applied twice is the identity, and for width 1 a single
application is already the identity. -/
theorem swapBytes_involution (w : Nat) (l : List Nat) (hw : ScalarWidth w)
    (hl : l.length = w) :
    swapBytes w (swapBytes w l) = l ∧ (w = 1 → swapBytes w l = l) := by
  constructor
  · rw [swapBytes_eq_reverse hw hl,
      swapBytes_eq_reverse hw (by rw [List.length_reverse, hl]),
      List.reverse_reverse]
  · rintro rfl
    match l, hl with
    | [a], _ => rfl

theorem swapBytes_involution_witness :
    ScalarWidth 4 ∧ [10, 20, 30, 40].length = 4 ∧
      swapBytes 4 (swapBytes 4 [10, 20, 30, 40]) = [10, 20, 30, 40] :=
  ⟨Or.inr (Or.inr (Or.inl rfl)), rfl,
    (swapBytes_involution 4 [10, 20, 30, 40] (Or.inr (Or.inr (Or.inl rfl))) rfl).1⟩

/-- Claim C5: on a little-endian host, encoding the 32-bit value
`0x12345678` with the big-endian tag produces the wire bytes
`12 34 56 78`; decoding them with the big-endian tag recovers `0x12345678`,
and decoding the same bytes with the little-endian tag yields
`0x78563412`. -/
theorem u32_bigendian_concrete :
    encodeScalar .little .big 4 0x12345678 = [0x12, 0x34, 0x56, 0x78]
    ∧ decodeScalar .little .big 4 [0x12, 0x34, 0x56, 0x78] = .ok (0x12345678, [])
    ∧ decodeScalar .little .little 4 [0x12, 0x34, 0x56, 0x78] = .ok (0x78563412, []) :=
  ⟨rfl, rfl, rfl⟩

/-- Claim C6: when the in-memory byte sequence of a multi-byte scalar is not
palindromic, encoding it with the little-endian tag and with the big-endian
tag produce different wire byte streams (on either host order). -/
theorem encode_little_big_distinct (host : Endian) (w v : Nat)
    (hw : ScalarWidth w)
    (hpal : nativeBytes host w v ≠ (nativeBytes host w v).reverse) :
    encodeScalar host .little w v ≠ encodeScalar host .big w v := by
  have hlen := nativeBytes_length host w v
  intro heq
  apply hpal
  cases host with
  | little =>
    have h1 : encodeScalar .little .little w v = nativeBytes .little w v := by
      simp [encodeScalar, swapperSwap]
    have h2 : encodeScalar .little .big w v = (nativeBytes .little w v).reverse := by
      simp [encodeScalar, swapperSwap, swapBytes_eq_reverse hw hlen]
    rw [h1, h2] at heq
    exact heq
  | big =>
    have h1 : encodeScalar .big .little w v = (nativeBytes .big w v).reverse := by
      simp [encodeScalar, swapperSwap, swapBytes_eq_reverse hw hlen]
    have h2 : encodeScalar .big .big w v = nativeBytes .big w v := by
      simp [encodeScalar, swapperSwap]
    rw [h1, h2] at heq
    exact heq.symm

theorem encode_little_big_distinct_witness :
    ScalarWidth 2
    ∧ nativeBytes .little 2 258 ≠ (nativeBytes .little 2 258).reverse
    ∧ encodeScalar .little .little 2 258 ≠ encodeScalar .little .big 2 258 :=
  ⟨Or.inr (Or.inl rfl), by decide,
    encode_little_big_distinct .little 2 258 (Or.inr (Or.inl rfl)) (by decide)⟩

/-- Claim C8: writing a fixed-width scalar never mutates the caller's
value — the parameter is a by-value copy, `Swapper::swap` is applied to
that copy, and the bytes written are exactly the conditionally swapped
encoding. -/
theorem scalar_write_preserves_arg (host tag : Endian) (w v : Nat)
    (stream : List Nat) :
    (scalarWriteCall host tag w v stream).1 = v
    ∧ (scalarWriteCall host tag w v stream).2 = stream ++ encodeScalar host tag w v :=
  ⟨rfl, rfl⟩

theorem strLen_append_null (s : List Nat) (h : ∀ b ∈ s, b ≠ 0) :
    strLen (s ++ [0]) = s.length := by
  rw [strLen]
  congr 1
  induction s with
  | nil => rfl
  | cons a t ih =>
    have ha : a ≠ 0 := h a (by simp)
    simp only [List.cons_append, List.takeWhile_cons]
    rw [if_pos (by simpa using ha)]
    rw [ih (fun b hb => h b (by simp [hb]))]

/-- Claim C9: for every byte string without embedded null bytes, the
null-terminated-literal writer (`operator<<(const char*)`, length via
`strlen`) produces exactly the same wire bytes as the `std::string` writer
on the equal string. -/
theorem cstring_matches_string_writer (host tag : Endian) (s : List Nat)
    (h : ∀ b ∈ s, b ≠ 0) :
    writeCString host tag (s ++ [0]) = encodeString host tag s := by
  have hn : strLen (s ++ [0]) = s.length := strLen_append_null s h
  rw [writeCString, encodeString, hn, List.take_left' rfl]

theorem cstring_matches_string_writer_witness :
    (∀ b ∈ [104, 105], b ≠ (0 : Nat))
    ∧ writeCString .little .little ([104, 105] ++ [0])
        = encodeString .little .little [104, 105] :=
  ⟨by decide, cstring_matches_string_writer .little .little [104, 105] (by decide)⟩

/-! ### Container codecs (std::vector, std::map)

An element codec is a pair of an encoder `α → List Nat` and a decoder
`List Nat → Except RErr (α × List Nat)`; the C++ resolves these by overload
at each call site, so the container codecs are parameterised by them.
A `std::map` is modelled by its contents in iteration order: an
association list strictly sorted by key (keys are `Nat`, matching a map
whose key type compares by `<`). -/

/-- The type of a decoding step for element type `α`. -/
def Dec (α : Type) : Type :=
  List Nat → Except RErr (α × List Nat)

/-- Concatenation of the element encodings, in forward iteration order
(the body of the `for` loops in the vector/map `operator<<`). -/
def encList {α : Type} (enc : α → List Nat) : List α → List Nat
  | [] => []
  | x :: xs => enc x ++ encList enc xs

/-- `vv.clear()`: the container's previous contents are discarded. -/
def listClear {α : Type} (_ : List α) : List α := []

/-- `vv.resize(n)` on a vector with default-constructible elements: keep the
first `n` elements and pad with default-constructed ones up to length `n`. -/
def listResize {α : Type} (l : List α) (n : Nat) (d : α) : List α :=
  l.take n ++ List.replicate (n - l.length) d

/-- `vv[i] = x` inside the vector decode loop (`s >> vv[i]` fully overwrites
element `i` for the element types at hand). -/
def setAll {α : Type} : List α → Nat → List α → List α
  | acc, _, [] => acc
  | acc, i, x :: xs => setAll (acc.set i x) (i + 1) xs

/-- The vector decode loop: `for(i=0; i<n; ++i) s >> vv[i];`. -/
def vecLoop {α : Type} (dec : Dec α) : Nat → Nat → List α → List Nat →
    Except RErr (List α × List Nat)
  | 0, _, vv, s => .ok (vv, s)
  | c + 1, i, vv, s => do
    let (x, s1) ← dec s
    vecLoop dec c (i + 1) (vv.set i x) s1

/-- `operator<< (Serializer&, const std::vector<T>&)`: write `vv.size()`,
then each element in forward order. -/
def vectorEncode {α : Type} (enc : α → List Nat) (host tag : Endian)
    (vv : List α) : List Nat :=
  encodeScalar host tag 8 vv.length ++ encList enc vv

/-- `operator>> (Serializer&, std::vector<T>&)`: read `n`, then
`vv.clear(); vv.resize(n);` and the element loop.  `init` is the vector's
contents before the call. -/
def vectorDecodeFrom {α : Type} (init : List α) (dflt : α) (dec : Dec α)
    (host tag : Endian) (s : List Nat) : Except RErr (List α × List Nat) := do
  let (n, s1) ← decodeScalar host tag 8 s
  let vv := listClear init
  let vv2 := listResize vv n dflt
  vecLoop dec n 0 vv2 s1

/-- `mm[k] = v` on a key-sorted association list: insert in key order,
overwriting the entry whose key equals `k` if one exists (the `std::map`
subscript-assign used by the map decode loop). -/
def mapAssign {α : Type} : List (Nat × α) → Nat → α → List (Nat × α)
  | [], k, v => [(k, v)]
  | (k1, v1) :: t, k, v =>
    if k < k1 then (k, v) :: (k1, v1) :: t
    else if k = k1 then (k, v) :: t
    else (k1, v1) :: mapAssign t k v

/-- The map decode loop: `for(i=0; i<n; ++i) { s >> p; mm[p.first] =
p.second; }` — the pair decode reads first then second. -/
def mapLoop {α : Type} (decK : Dec Nat) (decV : Dec α) : Nat →
    List (Nat × α) → List Nat → Except RErr (List (Nat × α) × List Nat)
  | 0, mm, s => .ok (mm, s)
  | c + 1, mm, s => do
    let (k, s1) ← decK s
    let (v, s2) ← decV s1
    mapLoop decK decV c (mapAssign mm k v) s2

/-- `operator<< (Serializer&, const std::map<T1,T2>&)`: write `mm.size()`,
then each `(key, value)` pair in the map's (key-sorted) iteration order;
the pair `operator<<` writes first then second. -/
def mapEncode {α : Type} (encK : Nat → List Nat) (encV : α → List Nat)
    (host tag : Endian) (mm : List (Nat × α)) : List Nat :=
  encodeScalar host tag 8 mm.length ++ encList (fun p => encK p.1 ++ encV p.2) mm

/-- `operator>> (Serializer&, std::map<T1,T2>&)`: read `n`, `mm.clear()`,
then the pair loop.  `init` is the map's contents before the call. -/
def mapDecodeFrom {α : Type} (init : List (Nat × α)) (decK : Dec Nat)
    (decV : Dec α) (host tag : Endian) (s : List Nat) :
    Except RErr (List (Nat × α) × List Nat) := do
  let (n, s1) ← decodeScalar host tag 8 s
  let mm := listClear init
  mapLoop decK decV n mm s1

/-- The strict key order of a `std::map` iteration: keys strictly
increasing along the list. -/
def KeySorted {α : Type} (mm : List (Nat × α)) : Prop :=
  mm.Pairwise (fun p q => p.1 < q.1)

/-! ### Container lemmas -/

theorem except_bind_ok {ε α β : Type} (a : α) (f : α → Except ε β) :
    ((Except.ok a : Except ε α) >>= f) = f a := rfl

theorem set_append_cons {α : Type} (pre : List α) (a x : α) (t : List α) :
    (pre ++ a :: t).set pre.length x = pre ++ x :: t := by
  induction pre with
  | nil => rfl
  | cons h pre ih => simp [List.set_cons_succ, ih]

theorem setAll_append_replicate {α : Type} (d : α) (xs : List α) :
    ∀ pre : List α,
      setAll (pre ++ List.replicate xs.length d) pre.length xs = pre ++ xs := by
  induction xs with
  | nil => intro pre; simp [setAll]
  | cons x xs ih =>
    intro pre
    simp only [List.length_cons, List.replicate_succ, setAll]
    rw [set_append_cons]
    have h := ih (pre ++ [x])
    simpa [List.append_assoc] using h

theorem setAll_replicate {α : Type} (d : α) (xs : List α) :
    setAll (List.replicate xs.length d) 0 xs = xs := by
  simpa using setAll_append_replicate d xs []

theorem vecLoop_encList {α : Type} (dec : Dec α) (enc : α → List Nat)
    (xs : List α) (hdec : ∀ x ∈ xs, ∀ s, dec (enc x ++ s) = .ok (x, s)) :
    ∀ (i : Nat) (acc : List α) (rest : List Nat),
      vecLoop dec xs.length i acc (encList enc xs ++ rest)
        = .ok (setAll acc i xs, rest) := by
  induction xs with
  | nil => intro i acc rest; simp [encList, vecLoop, setAll]
  | cons x xs ih =>
    intro i acc rest
    simp only [List.length_cons, encList, vecLoop, setAll]
    rw [List.append_assoc, hdec x (by simp)]
    simp only [except_bind_ok]
    exact ih (fun y hy s => hdec y (by simp [hy]) s) (i + 1) (acc.set i x) rest

/-- Vector round-trip: decoding the encoding restores the same elements in
the same order, for any element codec that round-trips on the elements. -/
theorem vectorDecodeFrom_encode {α : Type} (init : List α) (dflt : α)
    (dec : Dec α) (enc : α → List Nat) (host tag : Endian) (vv : List α)
    (rest : List Nat)
    (hdec : ∀ x ∈ vv, ∀ s, dec (enc x ++ s) = .ok (x, s))
    (hlen : vv.length < 256 ^ 8) :
    vectorDecodeFrom init dflt dec host tag (vectorEncode enc host tag vv ++ rest)
      = .ok (vv, rest) := by
  have h8 : ScalarWidth 8 := Or.inr (Or.inr (Or.inr rfl))
  simp only [vectorDecodeFrom, vectorEncode, listClear, listResize]
  rw [List.append_assoc, decodeScalar_encodeScalar host tag h8 hlen]
  simp only [except_bind_ok, List.take_nil, List.nil_append, List.length_nil,
    Nat.sub_zero]
  rw [vecLoop_encList dec enc vv hdec 0 (List.replicate vv.length dflt) rest,
    setAll_replicate]

theorem mapAssign_append {α : Type} (acc : List (Nat × α)) (k : Nat) (v : α)
    (h : ∀ p ∈ acc, p.1 < k) : mapAssign acc k v = acc ++ [(k, v)] := by
  induction acc with
  | nil => rfl
  | cons p t ih =>
    obtain ⟨k1, v1⟩ := p
    have hk1 : k1 < k := h (k1, v1) (by simp)
    simp only [mapAssign]
    rw [if_neg (by omega), if_neg (by omega),
      ih (fun q hq => h q (by simp [hq]))]
    simp

theorem mapLoop_encList {α : Type} (decK : Dec Nat) (decV : Dec α)
    (encK : Nat → List Nat) (encV : α → List Nat) (mm : List (Nat × α))
    (hK : ∀ p ∈ mm, ∀ s, decK (encK p.1 ++ s) = .ok (p.1, s))
    (hV : ∀ p ∈ mm, ∀ s, decV (encV p.2 ++ s) = .ok (p.2, s))
    (hsort : KeySorted mm) :
    ∀ (acc : List (Nat × α)) (rest : List Nat),
      (∀ p ∈ acc, ∀ q ∈ mm, p.1 < q.1) →
      mapLoop decK decV mm.length acc
        (encList (fun p => encK p.1 ++ encV p.2) mm ++ rest)
        = .ok (acc ++ mm, rest) := by
  induction mm with
  | nil => intro acc rest _; simp [encList, mapLoop]
  | cons p t ih =>
    intro acc rest hacc
    obtain ⟨k, v⟩ := p
    rw [KeySorted, List.pairwise_cons] at hsort
    simp only [List.length_cons, encList, mapLoop, List.append_assoc]
    rw [hK (k, v) (by simp)]
    simp only [except_bind_ok]
    rw [hV (k, v) (by simp)]
    simp only [except_bind_ok]
    rw [mapAssign_append acc k v (fun q hq => hacc q hq (k, v) (by simp))]
    have hcond : ∀ p2 ∈ acc ++ [(k, v)], ∀ q ∈ t, p2.1 < q.1 := by
      intro p2 hp2 q hq
      rcases List.mem_append.1 hp2 with hp2 | hp2
      · exact hacc p2 hp2 q (by simp [hq])
      · simp only [List.mem_singleton] at hp2
        subst hp2
        exact hsort.1 q hq
    have ih2 := ih (fun q hq s => hK q (by simp [hq]) s)
      (fun q hq s => hV q (by simp [hq]) s) hsort.2 (acc ++ [(k, v)]) rest hcond
    rw [ih2]
    simp

/-- Map round-trip: decoding the encoding of a key-sorted association list
restores exactly the same key-value associations. -/
theorem mapDecodeFrom_encode {α : Type} (init : List (Nat × α))
    (decK : Dec Nat) (decV : Dec α) (encK : Nat → List Nat)
    (encV : α → List Nat) (host tag : Endian) (mm : List (Nat × α))
    (rest : List Nat)
    (hK : ∀ p ∈ mm, ∀ s, decK (encK p.1 ++ s) = .ok (p.1, s))
    (hV : ∀ p ∈ mm, ∀ s, decV (encV p.2 ++ s) = .ok (p.2, s))
    (hsort : KeySorted mm) (hlen : mm.length < 256 ^ 8) :
    mapDecodeFrom init decK decV host tag (mapEncode encK encV host tag mm ++ rest)
      = .ok (mm, rest) := by
  have h8 : ScalarWidth 8 := Or.inr (Or.inr (Or.inr rfl))
  simp only [mapDecodeFrom, mapEncode, listClear]
  rw [List.append_assoc, decodeScalar_encodeScalar host tag h8 hlen]
  simp only [except_bind_ok]
  have h := mapLoop_encList decK decV encK encV mm hK hV hsort [] rest (by simp)
  simpa using h

/-! ### Claims C3, C7, C10 -/

/-- Claim C3: encoding the pair `(k, v1)` followed by `(k, v2)` for the same
key onto the stream as a mapping of count 2 and then decoding a mapping
from those bytes yields the mapping in which `k` is associated with `v2` —
the later entry overwrites the earlier one (`mm[p.first] = p.second`). -/
theorem map_duplicate_key_last_wins (host tag : Endian) (kw vw k v1 v2 : Nat)
    (init : List (Nat × Nat)) (rest : List Nat)
    (hkw : ScalarWidth kw) (hvw : ScalarWidth vw)
    (hk : k < 256 ^ kw) (hv1 : v1 < 256 ^ vw) (hv2 : v2 < 256 ^ vw) :
    mapDecodeFrom init (decodeScalar host tag kw) (decodeScalar host tag vw)
      host tag
      (encodeScalar host tag 8 2 ++ (encodeScalar host tag kw k
        ++ (encodeScalar host tag vw v1 ++ (encodeScalar host tag kw k
        ++ (encodeScalar host tag vw v2 ++ rest)))))
      = .ok ([(k, v2)], rest) := by
  have h8 : ScalarWidth 8 := Or.inr (Or.inr (Or.inr rfl))
  simp only [mapDecodeFrom, listClear]
  rw [decodeScalar_encodeScalar host tag h8 (by decide)]
  simp only [except_bind_ok, mapLoop]
  rw [decodeScalar_encodeScalar host tag hkw hk]
  simp only [except_bind_ok]
  rw [decodeScalar_encodeScalar host tag hvw hv1]
  simp only [except_bind_ok, mapAssign]
  rw [decodeScalar_encodeScalar host tag hkw hk]
  simp only [except_bind_ok]
  rw [decodeScalar_encodeScalar host tag hvw hv2]
  simp only [except_bind_ok]
  simp [mapAssign, mapLoop]

theorem map_duplicate_key_last_wins_witness :
    ScalarWidth 1 ∧ (5 : Nat) < 256 ^ 1 ∧ (7 : Nat) < 256 ^ 1
    ∧ (9 : Nat) < 256 ^ 1
    ∧ mapDecodeFrom [] (decodeScalar .little .little 1)
        (decodeScalar .little .little 1) .little .little
        (encodeScalar .little .little 8 2 ++ (encodeScalar .little .little 1 5
          ++ (encodeScalar .little .little 1 7 ++ (encodeScalar .little .little 1 5
          ++ (encodeScalar .little .little 1 9 ++ [])))))
        = .ok ([(5, 9)], []) :=
  ⟨Or.inl rfl, by decide, by decide, by decide,
    map_duplicate_key_last_wins .little .little 1 1 5 7 9 [] []
      (Or.inl rfl) (Or.inl rfl) (by decide) (by decide) (by decide)⟩

/-- Claim C7: for every vector and every key-sorted mapping — including the
empty ones — whose element codecs round-trip, decoding the bytes produced
by encoding the container with the same tag yields a container with the
same element count, the same elements in the same order (vectors), and the
same key-value associations (mappings); the decoder reads the count first,
clears/resizes the destination, then reads the elements in forward
order. -/
theorem container_roundtrip {α β : Type} (dec : Dec α) (enc : α → List Nat)
    (decK : Dec Nat) (decV : Dec β) (encK : Nat → List Nat)
    (encV : β → List Nat) (host tag : Endian) (vv : List α)
    (mm : List (Nat × β)) (initV : List α) (dflt : α) (initM : List (Nat × β))
    (rest1 rest2 : List Nat)
    (hdec : ∀ x ∈ vv, ∀ s, dec (enc x ++ s) = .ok (x, s))
    (hvlen : vv.length < 256 ^ 8)
    (hK : ∀ p ∈ mm, ∀ s, decK (encK p.1 ++ s) = .ok (p.1, s))
    (hV : ∀ p ∈ mm, ∀ s, decV (encV p.2 ++ s) = .ok (p.2, s))
    (hsort : KeySorted mm) (hmlen : mm.length < 256 ^ 8) :
    vectorDecodeFrom initV dflt dec host tag
        (vectorEncode enc host tag vv ++ rest1) = .ok (vv, rest1)
    ∧ mapDecodeFrom initM decK decV host tag
        (mapEncode encK encV host tag mm ++ rest2) = .ok (mm, rest2) :=
  ⟨vectorDecodeFrom_encode initV dflt dec enc host tag vv rest1 hdec hvlen,
    mapDecodeFrom_encode initM decK decV encK encV host tag mm rest2 hK hV
      hsort hmlen⟩

theorem container_roundtrip_witness :
    vectorDecodeFrom [99] 0 (decodeScalar .little .big 4) .little .big
        (vectorEncode (encodeScalar .little .big 4) .little .big [1, 2, 3] ++ [])
        = .ok ([1, 2, 3], [])
    ∧ mapDecodeFrom [(7, 7)] (decodeScalar .little .big 4)
        (decodeScalar .little .big 4) .little .big
        (mapEncode (encodeScalar .little .big 4) (encodeScalar .little .big 4)
          .little .big [(1, 10), (2, 20)] ++ [])
        = .ok ([(1, 10), (2, 20)], []) := by
  have h4 : ScalarWidth 4 := Or.inr (Or.inr (Or.inl rfl))
  exact container_roundtrip (decodeScalar .little .big 4)
    (encodeScalar .little .big 4) (decodeScalar .little .big 4)
    (decodeScalar .little .big 4) (encodeScalar .little .big 4)
    (encodeScalar .little .big 4) .little .big [1, 2, 3] [(1, 10), (2, 20)]
    [99] 0 [(7, 7)] [] []
    (by
      intro x hx s
      have hb : x < 256 ^ 4 := by
        simp only [List.mem_cons, List.not_mem_nil, or_false] at hx
        rcases hx with rfl | rfl | rfl <;> decide
      exact decodeScalar_encodeScalar .little .big h4 hb s)
    (by decide)
    (by
      intro p hp s
      have hb : p.1 < 256 ^ 4 := by
        simp only [List.mem_cons, List.not_mem_nil, or_false] at hp
        rcases hp with rfl | rfl <;> decide
      exact decodeScalar_encodeScalar .little .big h4 hb s)
    (by
      intro p hp s
      have hb : p.2 < 256 ^ 4 := by
        simp only [List.mem_cons, List.not_mem_nil, or_false] at hp
        rcases hp with rfl | rfl <;> decide
      exact decodeScalar_encodeScalar .little .big h4 hb s)
    (by unfold KeySorted; decide)
    (by decide)

/-- Claim C10: composite decode results depend only on the stream bytes,
never on the destination container's initial contents — the vector decoder
clears/resizes and the map decoder clears before populating, so two runs on
the same bytes from any two initial containers agree. -/
theorem decode_ignores_initial_contents {α β : Type} (dec : Dec α) (dflt : α)
    (decK : Dec Nat) (decV : Dec β) (host tag : Endian)
    (init1 init2 : List α) (initM1 initM2 : List (Nat × β))
    (s1 s2 : List Nat) :
    vectorDecodeFrom init1 dflt dec host tag s1
        = vectorDecodeFrom init2 dflt dec host tag s1
    ∧ mapDecodeFrom initM1 decK decV host tag s2
        = mapDecodeFrom initM2 decK decV host tag s2 :=
  ⟨rfl, rfl⟩
